import Mathlib

/-!
Verification of the KioskBrowser settings / page-model layer.

The definitions below are a shallow embedding of
`src/kioskbrowser/settings.py` (class `KioskBrowserSettings`, class
`SettingsPage`, class `URLConfigDialog`) and of
`MainWindow._setup_pages` in `src/kioskbrowser/main.py`.

The Qt backing store (`QSettings`) is modelled as an association list
from string keys to dynamically typed values; `QSettings.value` with a
`type=` argument returns the stored value when its type matches the
requested one and the supplied default otherwise (missing key gives the
default).  The URL table of the settings page is modelled as the list of
its rows, each row carrying the two text columns (URL, Label), plus the
current-row index (`-1` meaning no selection), exactly as
`QTableWidget.currentRow` reports it.
-/

namespace KioskBrowser

/-- A value storable in the settings backing store: the types that occur
in `KioskBrowserSettings.DEFAULT_SETTINGS` (bool, int, str, and the
`urls` list of string records). -/
inductive Value where
  | vBool (b : Bool)
  | vInt (n : Int)
  | vStr (s : String)
  | vUrls (records : List (List String))
deriving DecidableEq, Repr

/-- The runtime type tag of a `Value`, standing for Python's `type(v)`. -/
inductive VType where
  | tBool
  | tInt
  | tStr
  | tUrls
deriving DecidableEq, Repr

/-- `type(v)` for a stored value. -/
def Value.vtype : Value → VType
  | .vBool _ => .tBool
  | .vInt _ => .tInt
  | .vStr _ => .tStr
  | .vUrls _ => .tUrls

/-- The backing key-value store behind `QSettings("meowmeowahr", "KioskBrowser")`:
a flat mapping from key names to stored values (`none` = key absent). -/
abbrev Store := String → Option Value

/-- A backing store with no keys set. -/
def emptyStore : Store := fun _ => none

/-- An in-memory settings dictionary, as returned by `load_settings`. -/
abbrev Settings := List (String × Value)

/-- `QSettings.setValue(key, value)`: overwrite the entry for `key`. -/
def storeSetValue (store : Store) (key : String) (v : Value) : Store :=
  fun k => if k = key then some v else store k

/-- `QSettings.value(key, default, type=type(default))`: the stored value
when present with the requested type, the default otherwise (missing or
type-mismatched data falls back to the default). -/
def storeValue (store : Store) (key : String) (default : Value) : Value :=
  match store key with
  | some v => if v.vtype = default.vtype then v else default
  | none => default

namespace KioskBrowserSettings

/-- `KioskBrowserSettings.DEFAULT_SETTINGS` from `settings.py`. -/
def DEFAULT_SETTINGS : Settings :=
  [ ("urls", .vUrls []),
    ("windowBranding", .vStr "Kiosk Browser"),
    ("fullscreen", .vBool true),
    ("topbar", .vBool true),
    ("topbar_12hr", .vBool true),
    ("topbar_battery", .vBool false),
    ("topbar_cpu", .vBool false),
    ("topbar_mem", .vBool false),
    ("topbar_update_speed", .vInt 1000),
    ("lockdown", .vBool false),
    ("lockdown_always_on_top", .vBool false),
    ("lockdown_windows_hide_taskbar", .vBool false),
    ("linux_wayland_experimental", .vBool false) ]

/-- `KioskBrowserSettings.load_settings`: one `settings.value` call per
schema key, in schema order. -/
def load_settings (store : Store) : Settings :=
  DEFAULT_SETTINGS.map (fun kd => (kd.1, storeValue store kd.1 kd.2))

/-- `KioskBrowserSettings.save_settings`: `setValue` for every key of the
given settings dict, in order. -/
def save_settings (s : Settings) (store : Store) : Store :=
  s.foldl (fun st kv => storeSetValue st kv.1 kv.2) store

end KioskBrowserSettings

/-- One row of the settings page's URL table: the texts of its two
columns (URL, Label). -/
abbrev Row := String × String

/-- `SettingsPage._populate_url_table`: rebuild the table rows from
`settings["urls"]`.  The source iterates `for url, label, *_ in urls`,
so a record with fewer than two elements raises (modelled as `none`) and
any elements beyond the first two are ignored. -/
def populate_url_table : List (List String) → Option (List Row)
  | [] => some []
  | (url :: label :: _) :: rest =>
      (populate_url_table rest).map (fun rows => (url, label) :: rows)
  | _ => none

/-- `URLConfigDialog.get_data`: returns the two line-edit texts with no
validation of any kind. -/
def url_config_get_data (url label : String) : String × String :=
  (url, label)

/-- `SettingsPage._add_url` after the dialog is accepted: insert a new
row at the end of the table holding the dialog's data. -/
def add_url (rows : List Row) (url label : String) : List Row :=
  rows ++ [url_config_get_data url label]

/-- `QTableWidget.removeRow(i)`: delete row `i`; an out-of-range index is
ignored. -/
def removeRow : List Row → Nat → List Row
  | [], _ => []
  | _ :: rs, 0 => rs
  | r :: rs, n + 1 => r :: removeRow rs n

/-- `SettingsPage._remove_selected_urls`: collect the set of selected row
indices and delete them in descending order (`sorted(selected_rows,
reverse=True)`). -/
def remove_selected_urls (rows : List Row) (selected : List Nat) : List Row :=
  (List.insertionSort (fun a b : Nat => a ≥ b) selected.dedup).foldl removeRow rows

/-- `SettingsPage._swap_rows(row1, row2)`: take the items of both rows
and set them back exchanged. -/
def swap_rows (rows : List Row) (row1 row2 : Nat) : List Row :=
  (rows.set row1 (rows.getD row2 ("", ""))).set row2 (rows.getD row1 ("", ""))

/-- `SettingsPage._move_up`: no-op without a selection or at row 0;
otherwise swap the current row with the one above and re-select the row
above. -/
def move_up (rows : List Row) (cur : Int) : List Row × Int :=
  if cur = -1 then (rows, cur)
  else if cur > 0 then (swap_rows rows cur.toNat (cur.toNat - 1), cur - 1)
  else (rows, cur)

/-- `SettingsPage._move_down`: no-op without a selection or at the last
row; otherwise swap the current row with the one below and re-select the
row below. -/
def move_down (rows : List Row) (cur : Int) : List Row × Int :=
  if cur = -1 then (rows, cur)
  else if cur < (rows.length : Int) - 1 then
    (swap_rows rows cur.toNat (cur.toNat + 1), cur + 1)
  else (rows, cur)

/-- The `urls` list built by `SettingsPage.save`: one
`[url, label, "@pageicon"]` record per table row, in row order. -/
def save_urls (rows : List Row) : List (List String) :=
  rows.map (fun r => [r.1, r.2, "@pageicon"])

/-- `QSpinBox.setValue` under `setRange(lo, hi)`: Qt clamps the value
into the configured range, so the spin box never holds a value outside
`[lo, hi]`.  The settings page configures `setRange(500, 10000)` for
`topbar_update_speed` and `save` persists `spin_box.value()`. -/
def spin_box_setValue (lo hi v : Int) : Int :=
  max lo (min hi v)

/-- `MainWindow._setup_pages` record decoding: the source iterates
`for index, (url, label, icon_path) in enumerate(self.settings["urls"])`,
an exact 3-way unpack, so any record whose length differs from 3 raises
(modelled as `none`). -/
def setup_pages : List (List String) → Option (List (String × String × String))
  | [] => some []
  | [url, label, icon_path] :: rest =>
      (setup_pages rest).map (fun pages => (url, label, icon_path) :: pages)
  | _ => none

/-- Reference description of batch removal: keep exactly the entries
whose position (counting from `start`) is not selected, in order. -/
def keepIdx (selected : List Nat) : List Row → Nat → List Row
  | [], _ => []
  | r :: rs, start =>
      if start ∈ selected then keepIdx selected rs (start + 1)
      else r :: keepIdx selected rs (start + 1)

/-- A settings dict is well-formed when its keys are exactly the schema
keys (in some order) and each value has the type the schema assigns to
its key. -/
def wellFormed (s : Settings) : Prop :=
  (s.map Prod.fst).Perm (KioskBrowserSettings.DEFAULT_SETTINGS.map Prod.fst) ∧
  ∀ kv ∈ s, ∀ kd ∈ KioskBrowserSettings.DEFAULT_SETTINGS,
    kv.1 = kd.1 → kv.2.vtype = kd.2.vtype

open KioskBrowserSettings

/-! ### Association-list helper lemmas -/

theorem lookup_map_keyed (f : String → Value → Value) :
    ∀ (l : List (String × Value)) (k : String),
      (l.map (fun kd => (kd.1, f kd.1 kd.2))).lookup k = (l.lookup k).map (f k)
  | [], _ => rfl
  | (k', d) :: rest, k => by
    by_cases h : k = k'
    · subst h
      simp [List.lookup_cons]
    · have hb : (k == k') = false := by simp [h]
      simp [List.lookup_cons, hb, lookup_map_keyed f rest k]

theorem lookup_eq_none_of_not_mem_keys {l : List (String × Value)} {k : String}
    (h : k ∉ l.map Prod.fst) : l.lookup k = none := by
  simp only [List.lookup_eq_none_iff]
  intro p hp
  simp only [bne_iff_ne, ne_eq]
  intro he
  exact h (he ▸ List.mem_map_of_mem Prod.fst hp)

theorem lookup_isSome_of_mem_keys {l : List (String × Value)} {k : String}
    (h : k ∈ l.map Prod.fst) : (l.lookup k).isSome := by
  simp only [List.lookup_isSome_iff]
  rcases List.mem_map.mp h with ⟨p, hp, rfl⟩
  exact ⟨p, hp, by simp⟩

theorem mem_of_lookup_eq_some {l : List (String × Value)} {k : String} {v : Value}
    (h : l.lookup k = some v) : (k, v) ∈ l := by
  rcases List.lookup_eq_some_iff.mp h with ⟨l₁, l₂, rfl, -⟩
  simp

/-- The keys of a loaded settings dict are the schema keys, in schema
order, whatever the backing store holds. -/
theorem load_settings_keys (store : Store) :
    (load_settings store).map Prod.fst = DEFAULT_SETTINGS.map Prod.fst := rfl

theorem save_settings_apply :
    ∀ (s : Settings) (store : Store) (k : String),
      (s.map Prod.fst).Nodup →
      save_settings s store k = (s.lookup k).or (store k)
  | [], _, _, _ => rfl
  | (k', v) :: t, store, k, hnd => by
    have hsplit := List.nodup_cons.mp (hnd : (k' :: t.map Prod.fst).Nodup)
    have hstep : save_settings ((k', v) :: t) store =
        save_settings t (storeSetValue store k' v) := rfl
    rw [hstep, save_settings_apply t _ k hsplit.2]
    by_cases h : k = k'
    · subst h
      rw [lookup_eq_none_of_not_mem_keys hsplit.1]
      simp [storeSetValue, List.lookup_cons]
    · have hb : (k == k') = false := by simp [h]
      simp [storeSetValue, h, List.lookup_cons, hb]

/-- A well-formed settings dict used to exercise the round-trip: every
schema key present, in a different order than the schema and with
non-default values throughout. -/
def roundtripExample : Settings :=
  [ ("topbar", .vBool false),
    ("urls", .vUrls [["https://a.test", "A", "@pageicon"]]),
    ("windowBranding", .vStr "My Kiosk"),
    ("fullscreen", .vBool false),
    ("topbar_12hr", .vBool false),
    ("topbar_battery", .vBool true),
    ("topbar_cpu", .vBool true),
    ("topbar_mem", .vBool true),
    ("topbar_update_speed", .vInt 2000),
    ("lockdown", .vBool true),
    ("lockdown_always_on_top", .vBool true),
    ("lockdown_windows_hide_taskbar", .vBool true),
    ("linux_wayland_experimental", .vBool true) ]

/-! ### Claim theorems -/

/-- C1: `load_settings` returns a dict in which every recognized schema
key is populated: its keys are exactly the schema keys for every backing
store, any key absent from the store is filled with its schema default,
and on an empty backing store the result equals `DEFAULT_SETTINGS`
exactly.  Being a total function, it never raises for missing data. -/
theorem load_settings_fills_defaults :
    load_settings emptyStore = DEFAULT_SETTINGS ∧
    (∀ store : Store,
      (load_settings store).map Prod.fst = DEFAULT_SETTINGS.map Prod.fst) ∧
    (∀ (store : Store) (k : String) (d : Value),
      (k, d) ∈ DEFAULT_SETTINGS → store k = none → (k, d) ∈ load_settings store) := by
  refine ⟨by decide, fun store => load_settings_keys store, ?_⟩
  intro store k d hmem hnone
  have hval : storeValue store k d = d := by simp [storeValue, hnone]
  have h2 := List.mem_map_of_mem
    (fun kd : String × Value => (kd.1, storeValue store kd.1 kd.2)) hmem
  rw [load_settings]
  simpa [hval] using h2

/-- Witness: with only `topbar` set in the store, the absent key
`fullscreen` is back-filled with its default `true`. -/
theorem load_settings_fills_defaults_witness :
    ("fullscreen", Value.vBool true) ∈ DEFAULT_SETTINGS ∧
    storeSetValue emptyStore "topbar" (Value.vBool false) "fullscreen" = none ∧
    ("fullscreen", Value.vBool true) ∈
      load_settings (storeSetValue emptyStore "topbar" (Value.vBool false)) :=
  ⟨by decide, by decide,
    load_settings_fills_defaults.2.2
      (storeSetValue emptyStore "topbar" (Value.vBool false))
      "fullscreen" (Value.vBool true) (by decide) (by decide)⟩

/-- C2: round-trip — for every well-formed settings dict `s` and every
initial backing store, `save_settings s` followed by `load_settings`
returns a dict equal to `s` up to key ordering: same keys up to
permutation and the same value under every key. -/
theorem save_load_roundtrip (s : Settings) (store : Store) (h : wellFormed s) :
    ((load_settings (save_settings s store)).map Prod.fst).Perm (s.map Prod.fst) ∧
    ∀ k : String,
      (load_settings (save_settings s store)).lookup k = s.lookup k := by
  obtain ⟨hperm, htype⟩ := h
  have hnd : (s.map Prod.fst).Nodup := hperm.nodup_iff.mpr (by decide)
  constructor
  · rw [load_settings_keys]
    exact hperm.symm
  · intro k
    by_cases hk : k ∈ DEFAULT_SETTINGS.map Prod.fst
    · obtain ⟨d, hd⟩ :=
        Option.isSome_iff_exists.mp (lookup_isSome_of_mem_keys hk)
      have hks : k ∈ s.map Prod.fst := hperm.mem_iff.mpr hk
      obtain ⟨v, hv⟩ :=
        Option.isSome_iff_exists.mp (lookup_isSome_of_mem_keys hks)
      have hsave : save_settings s store k = some v := by
        rw [save_settings_apply s store k hnd, hv]
        rfl
      have hvt : v.vtype = d.vtype :=
        htype (k, v) (mem_of_lookup_eq_some hv) (k, d) (mem_of_lookup_eq_some hd) rfl
      calc (load_settings (save_settings s store)).lookup k
          = (DEFAULT_SETTINGS.lookup k).map
              (fun d => storeValue (save_settings s store) k d) :=
            lookup_map_keyed (fun key d => storeValue (save_settings s store) key d)
              DEFAULT_SETTINGS k
        _ = some (storeValue (save_settings s store) k d) := by rw [hd]; rfl
        _ = some v := by simp [storeValue, hsave, hvt]
        _ = s.lookup k := hv.symm
    · have h1 : DEFAULT_SETTINGS.lookup k = none := lookup_eq_none_of_not_mem_keys hk
      have hks : k ∉ s.map Prod.fst := fun hin => hk (hperm.mem_iff.mp hin)
      calc (load_settings (save_settings s store)).lookup k
          = (DEFAULT_SETTINGS.lookup k).map
              (fun d => storeValue (save_settings s store) k d) :=
            lookup_map_keyed (fun key d => storeValue (save_settings s store) key d)
              DEFAULT_SETTINGS k
        _ = none := by rw [h1]; rfl
        _ = s.lookup k := (lookup_eq_none_of_not_mem_keys hks).symm

/-- Witness: the reordered, fully non-default `roundtripExample` is
well-formed and survives the save/load round trip under its `urls` key. -/
theorem save_load_roundtrip_witness :
    wellFormed roundtripExample ∧
    (load_settings (save_settings roundtripExample emptyStore)).lookup "urls" =
      roundtripExample.lookup "urls" :=
  have hwf : wellFormed roundtripExample := by
    unfold wellFormed
    exact ⟨by decide, by decide⟩
  ⟨hwf, (save_load_roundtrip roundtripExample emptyStore hwf).2 "urls"⟩

theorem populate_save_eq :
    ∀ (urls : List (List String)) (rows : List Row),
      populate_url_table urls = some rows →
      save_urls rows = urls.map (fun r => r.take 2 ++ ["@pageicon"])
  | [], rows, h => by
    simp only [populate_url_table, Option.some.injEq] at h
    subst h
    rfl
  | (url :: label :: t) :: rest, rows, h => by
    simp only [populate_url_table] at h
    rcases Option.map_eq_some'.mp h with ⟨rows', h1, h2⟩
    subst h2
    have ih := populate_save_eq rest rows' h1
    simpa [save_urls] using ih
  | [] :: rest, rows, h => by
    simp [populate_url_table] at h
  | [x] :: rest, rows, h => by
    simp [populate_url_table] at h

/-- C3 (corrected): rebuilding the table from `settings["urls"]` and
flattening it back for persistence keeps the order and the url/label of
every record, but truncates each record to its first two fields and
rewrites the third to `"@pageicon"`; it reproduces `settings.urls`
exactly when every record already has the shape
`[url, label, "@pageicon"]`. -/
theorem flatten_rebuild (urls : List (List String)) (rows : List Row)
    (h : populate_url_table urls = some rows) :
    save_urls rows = urls.map (fun r => r.take 2 ++ ["@pageicon"]) ∧
    ((∀ r ∈ urls, r = r.take 2 ++ ["@pageicon"]) → save_urls rows = urls) := by
  refine ⟨populate_save_eq urls rows h, fun hall => ?_⟩
  rw [populate_save_eq urls rows h]
  conv_rhs => rw [← List.map_id urls]
  exact List.map_congr_left (fun r hr => (hall r hr).symm)

/-- Counterexample to C3 as stated: a record with a custom local icon
path comes back with `"@pageicon"` instead, so the round trip does not
reproduce `settings.urls` including its iconSpec. -/
theorem flatten_rebuild_not_exact :
    populate_url_table [["https://a.test", "A", "local_icon.png"]] =
      some [("https://a.test", "A")] ∧
    save_urls [("https://a.test", "A")] = [["https://a.test", "A", "@pageicon"]] ∧
    [["https://a.test", "A", "@pageicon"]] ≠ [["https://a.test", "A", "local_icon.png"]] :=
  ⟨by decide, by decide, by decide⟩

/-- Witness: the amended round-trip equation at a concrete record with a
custom icon path. -/
theorem flatten_rebuild_witness :
    populate_url_table [["https://a.test", "A", "x.png"]] =
      some [("https://a.test", "A")] ∧
    save_urls [("https://a.test", "A")] =
      [["https://a.test", "A", "x.png"]].map (fun r => r.take 2 ++ ["@pageicon"]) :=
  ⟨by decide, (flatten_rebuild [["https://a.test", "A", "x.png"]]
    [("https://a.test", "A")] (by decide)).1⟩

/-- Counterexample to C4 as stated: the URL dialog performs no
validation, so an entry added with empty URL and empty label reaches the
persisted urls list, which therefore contains a record with empty url
and empty label after save. -/
theorem empty_entry_reaches_saved_urls :
    save_urls (add_url [] "" "") = [["", "", "@pageicon"]] ∧
    ¬ (∀ r ∈ save_urls (add_url [] "" ""), r.getD 0 "x" ≠ "" ∧ r.getD 1 "x" ≠ "") :=
  ⟨by decide, by decide⟩

/-- C4 (corrected): nothing is rejected at the edit boundary —
`URLConfigDialog.get_data` returns the raw inputs and an accepted dialog
appends them verbatim, so the saved list gains exactly the record
`[url, label, "@pageicon"]` for whatever strings were entered, empty or
not. -/
theorem add_url_no_validation (rows : List Row) (url label : String) :
    url_config_get_data url label = (url, label) ∧
    save_urls (add_url rows url label) = save_urls rows ++ [[url, label, "@pageicon"]] := by
  refine ⟨rfl, ?_⟩
  simp [save_urls, add_url, url_config_get_data]

/-- Counterexample to C5 as stated: a 2-element record (iconSpec
omitted) is accepted by the settings table rebuild but raises in
`MainWindow._setup_pages`, whose exact 3-way unpack rejects it
(modelled as `none`). -/
theorem short_record_raises_in_setup_pages :
    populate_url_table [["https://a.test", "A"]] = some [("https://a.test", "A")] ∧
    setup_pages [["https://a.test", "A"]] = none :=
  ⟨by decide, by decide⟩

/-- C5 (corrected): the settings table rebuild accepts every urls value
whose records have at least 2 elements, ignoring fields beyond url and
label; the main-window page setup additionally requires every record to
have exactly 3 elements, and only then do both accept without raising. -/
theorem record_arity_tolerance (urls : List (List String)) :
    ((∀ r ∈ urls, 2 ≤ r.length) → (populate_url_table urls).isSome) ∧
    ((∀ r ∈ urls, r.length = 3) →
      (populate_url_table urls).isSome ∧ (setup_pages urls).isSome) := by
  induction urls with
  | nil => exact ⟨fun _ => rfl, fun _ => ⟨rfl, rfl⟩⟩
  | cons r rest ih =>
    constructor
    · intro hall
      have hrest := ih.1 (fun x hx => hall x (List.mem_cons_of_mem _ hx))
      have hr := hall r (List.mem_cons_self _ _)
      match r, hr with
      | u :: l :: t, _ =>
        simpa [populate_url_table] using hrest
      | [], h => simp at h
      | [x], h => simp at h
    · intro hall
      obtain ⟨hpop, hsetup⟩ := ih.2 (fun x hx => hall x (List.mem_cons_of_mem _ hx))
      have hr := hall r (List.mem_cons_self _ _)
      match r, hr with
      | [u, l, i], _ =>
        exact ⟨by simpa [populate_url_table] using hpop,
               by simpa [setup_pages] using hsetup⟩
      | [], h => simp at h
      | [x], h => simp at h
      | [x, y], h => simp at h
      | x :: y :: z :: w :: t, h => simp at h

/-- Witness: a single 3-element record is accepted by both decoders. -/
theorem record_arity_tolerance_witness :
    (populate_url_table [["https://a.test", "A", "@pageicon"]]).isSome ∧
    (setup_pages [["https://a.test", "A", "@pageicon"]]).isSome :=
  ⟨(record_arity_tolerance [["https://a.test", "A", "@pageicon"]]).1 (by decide),
   ((record_arity_tolerance [["https://a.test", "A", "@pageicon"]]).2 (by decide)).2⟩

/-- C6: loading a store that holds only `topbar_update_speed = 250`
returns 250 unclamped, while the edit-time spin box (range
`[500, 10000]`) clamps 250 up to 500 and keeps every user-entered value
inside the range before it can reach `save`. -/
theorem update_speed_clamped_at_edit_not_load :
    (load_settings
        (storeSetValue emptyStore "topbar_update_speed" (Value.vInt 250))).lookup
      "topbar_update_speed" = some (Value.vInt 250) ∧
    spin_box_setValue 500 10000 250 = 500 ∧
    ∀ v : Int, 500 ≤ spin_box_setValue 500 10000 v ∧
      spin_box_setValue 500 10000 v ≤ 10000 := by
  refine ⟨by decide, by decide, fun v => ⟨le_max_left _ _, ?_⟩⟩
  exact max_le (by norm_num) (min_le_left _ _)

/-- C9: starting from an empty urls list, appending A then B and moving
row 0 down yields the flattened persistence list `[B, A]` (and the
selection follows the moved entry to row 1). -/
theorem scenario_two_appends_movedown :
    populate_url_table [] = some [] ∧
    save_urls (move_down (add_url (add_url [] "https://a.test" "A")
        "https://b.test" "B") 0).1 =
      [["https://b.test", "B", "@pageicon"], ["https://a.test", "A", "@pageicon"]] ∧
    (move_down (add_url (add_url [] "https://a.test" "A")
        "https://b.test" "B") 0).2 = 1 :=
  ⟨rfl, by decide, by decide⟩

/-! ### Row swap and move lemmas -/

theorem swap_rows_spec (rows : List Row) (i j : Nat)
    (hi : i < rows.length) (hj : j < rows.length) (hne : i ≠ j) :
    (swap_rows rows i j)[i]? = rows[j]? ∧
    (swap_rows rows i j)[j]? = rows[i]? ∧
    ∀ k : Nat, k ≠ i → k ≠ j → (swap_rows rows i j)[k]? = rows[k]? := by
  unfold swap_rows
  refine ⟨?_, ?_, fun k hki hkj => ?_⟩
  · rw [List.getElem?_set_ne (Ne.symm hne), List.getElem?_set_self hi]
    simp [List.getD_eq_getElem?_getD, List.getElem?_eq_getElem hj]
  · rw [List.getElem?_set_self (by simpa using hj)]
    simp [List.getD_eq_getElem?_getD, List.getElem?_eq_getElem hi]
  · rw [List.getElem?_set_ne (Ne.symm hkj), List.getElem?_set_ne (Ne.symm hki)]

theorem move_up_eq (rows : List Row) (i : Nat) (h0 : 0 < i) :
    move_up rows i = (swap_rows rows i (i - 1), (i : Int) - 1) := by
  unfold move_up
  rw [if_neg (by omega), if_pos (by exact_mod_cast h0)]
  simp

theorem move_down_eq (rows : List Row) (i : Nat) (h : i + 1 < rows.length) :
    move_down rows i = (swap_rows rows i (i + 1), (i : Int) + 1) := by
  unfold move_down
  rw [if_neg (by omega), if_pos (by omega)]
  simp

/-- C7: with a selection at row `i`, `_move_up` for `0 < i < n` swaps
rows `i` and `i-1` and moves the selection to `i-1`; `_move_down` for
`i < n-1` swaps rows `i` and `i+1` and moves the selection to `i+1`;
`_move_up` at row 0 and `_move_down` at the last row leave table and
selection unchanged. -/
theorem move_row_spec (rows : List Row) (i : Nat) (hi : i < rows.length) :
    (0 < i →
      (move_up rows i).2 = (i : Int) - 1 ∧
      (move_up rows i).1[i - 1]? = rows[i]? ∧
      (move_up rows i).1[i]? = rows[i - 1]? ∧
      ∀ j : Nat, j ≠ i → j ≠ i - 1 → (move_up rows i).1[j]? = rows[j]?) ∧
    move_up rows 0 = (rows, 0) ∧
    (i + 1 < rows.length →
      (move_down rows i).2 = (i : Int) + 1 ∧
      (move_down rows i).1[i + 1]? = rows[i]? ∧
      (move_down rows i).1[i]? = rows[i + 1]? ∧
      ∀ j : Nat, j ≠ i → j ≠ i + 1 → (move_down rows i).1[j]? = rows[j]?) ∧
    move_down rows ((rows.length : Int) - 1) = (rows, (rows.length : Int) - 1) := by
  refine ⟨fun h0 => ?_, ?_, fun hdn => ?_, ?_⟩
  · rw [move_up_eq rows i h0]
    obtain ⟨h1, h2, h3⟩ := swap_rows_spec rows i (i - 1) hi (by omega) (by omega)
    exact ⟨rfl, h2, h1, fun j hji hji1 => h3 j hji hji1⟩
  · unfold move_up
    rw [if_neg (by decide), if_neg (by decide)]
  · rw [move_down_eq rows i hdn]
    obtain ⟨h1, h2, h3⟩ := swap_rows_spec rows i (i + 1) hi (by omega) (by omega)
    exact ⟨rfl, h2, h1, fun j hji hji1 => h3 j hji hji1⟩
  · unfold move_down
    by_cases hlen : rows.length = 0
    · rw [if_pos (by rw [hlen]; decide)]
    · rw [if_neg (by omega), if_neg (by omega)]

/-- Witness: moving row 1 of a 2-row table up lands the selection on
row 0 and swaps the two rows. -/
theorem move_row_spec_witness :
    0 < 1 ∧
    (move_up [("https://a.test", "A"), ("https://b.test", "B")]
        ((1 : Nat) : Int)).2 = ((1 : Nat) : Int) - 1 :=
  ⟨by decide,
    ((move_row_spec [("https://a.test", "A"), ("https://b.test", "B")] 1
      (by decide)).1 (by decide)).1⟩

/-! ### Batch removal lemmas -/

theorem removeRow_of_le :
    ∀ (rows : List Row) (i : Nat), rows.length ≤ i → removeRow rows i = rows
  | [], _, _ => rfl
  | r :: rs, 0, h => by simp at h
  | r :: rs, n + 1, h => by
    simp only [removeRow]
    rw [removeRow_of_le rs n (by simpa using h)]

theorem foldl_removeRow_oob :
    ∀ (l : List Nat) (rows : List Row),
      (∀ i ∈ l, rows.length ≤ i) → l.foldl removeRow rows = rows
  | [], _, _ => rfl
  | i :: t, rows, h => by
    simp only [List.foldl_cons,
      removeRow_of_le rows i (h i (List.mem_cons_self _ _))]
    exact foldl_removeRow_oob t rows (fun j hj => h j (List.mem_cons_of_mem _ hj))

theorem keepIdx_of_lt :
    ∀ (sel : List Nat) (rows : List Row) (s : Nat),
      (∀ j ∈ sel, j < s) → keepIdx sel rows s = rows
  | _, [], _, _ => rfl
  | sel, r :: rs, s, h => by
    have hs : s ∉ sel := fun hmem => Nat.lt_irrefl s (h s hmem)
    simp only [keepIdx, if_neg hs]
    rw [keepIdx_of_lt sel rs (s + 1) (fun j hj => Nat.lt_succ_of_lt (h j hj))]

theorem removeRow_keepIdx :
    ∀ (rs : List Row) (p : Nat) (rest : List Nat) (s : Nat),
      (∀ j ∈ rest, j < s + p) →
      keepIdx rest (removeRow rs p) s = keepIdx ((s + p) :: rest) rs s
  | [], _, _, _, _ => rfl
  | r :: rs, 0, rest, s, h => by
    simp only [removeRow, keepIdx, Nat.add_zero]
    rw [if_pos (List.mem_cons_self s rest)]
    rw [keepIdx_of_lt rest rs s (by simpa using h)]
    rw [keepIdx_of_lt (s :: rest) rs (s + 1) ?bound]
    case bound =>
      intro j hj
      rcases List.mem_cons.mp hj with rfl | hj2
      · omega
      · have := h j hj2
        omega
  | r :: rs, p + 1, rest, s, h => by
    have hne : s ≠ s + (p + 1) := by omega
    by_cases hs : s ∈ rest
    · simp only [removeRow, keepIdx]
      rw [if_pos hs, if_pos (List.mem_cons_of_mem _ hs)]
      have ih := removeRow_keepIdx rs p rest (s + 1) (fun j hj => by
        have := h j hj; omega)
      rw [ih]
      have harith : s + 1 + p = s + (p + 1) := by omega
      rw [harith]
    · simp only [removeRow, keepIdx]
      rw [if_neg hs,
        if_neg (by
          intro hmem
          rcases List.mem_cons.mp hmem with heq | hmem2
          · exact hne heq
          · exact hs hmem2)]
      have ih := removeRow_keepIdx rs p rest (s + 1) (fun j hj => by
        have := h j hj; omega)
      rw [ih]
      have harith : s + 1 + p = s + (p + 1) := by omega
      rw [harith]

theorem foldl_removeRow_desc :
    ∀ (l : List Nat) (rows : List Row),
      l.Pairwise (fun a b => b < a) → l.foldl removeRow rows = keepIdx l rows 0
  | [], rows, _ => by
    rw [keepIdx_of_lt [] rows 0 (by simp)]
    rfl
  | i :: t, rows, hp => by
    obtain ⟨hlt, htail⟩ := List.pairwise_cons.mp hp
    simp only [List.foldl_cons]
    rw [foldl_removeRow_desc t (removeRow rows i) htail]
    have := removeRow_keepIdx rows i t 0 (by simpa using hlt)
    simpa using this

theorem keepIdx_congr_on :
    ∀ (s1 s2 : List Nat) (rows : List Row) (st : Nat),
      (∀ j : Nat, st ≤ j → j < st + rows.length → (j ∈ s1 ↔ j ∈ s2)) →
      keepIdx s1 rows st = keepIdx s2 rows st
  | _, _, [], _, _ => rfl
  | s1, s2, r :: rs, st, h => by
    have hst := h st (Nat.le_refl st) (by simp)
    have hrest : ∀ j : Nat, st + 1 ≤ j → j < st + 1 + rs.length → (j ∈ s1 ↔ j ∈ s2) := by
      intro j h1 h2
      exact h j (by omega) (by simp; omega)
    by_cases hs : st ∈ s1
    · simp only [keepIdx, if_pos hs, if_pos (hst.mp hs)]
      exact keepIdx_congr_on s1 s2 rs (st + 1) hrest
    · simp only [keepIdx, if_neg hs, if_neg (fun hmem => hs (hst.mpr hmem))]
      rw [keepIdx_congr_on s1 s2 rs (st + 1) hrest]

theorem keepIdx_congr (s1 s2 : List Nat) (rows : List Row) (st : Nat)
    (h : ∀ j : Nat, j ∈ s1 ↔ j ∈ s2) : keepIdx s1 rows st = keepIdx s2 rows st :=
  keepIdx_congr_on s1 s2 rows st (fun j _ _ => h j)

theorem remove_selected_urls_eq_keepIdx (rows : List Row) (selected : List Nat) :
    remove_selected_urls rows selected = keepIdx selected rows 0 := by
  unfold remove_selected_urls
  have hsorted : List.Pairwise (fun a b : Nat => a ≥ b)
      (List.insertionSort (fun a b : Nat => a ≥ b) selected.dedup) :=
    List.sorted_insertionSort _ _
  have hnodup : (List.insertionSort (fun a b : Nat => a ≥ b) selected.dedup).Nodup :=
    (List.perm_insertionSort _ _).nodup_iff.mpr (List.nodup_dedup selected)
  have hdesc : (List.insertionSort (fun a b : Nat => a ≥ b) selected.dedup).Pairwise
      (fun a b => b < a) :=
    (hsorted.and hnodup).imp (fun hab => lt_of_le_of_ne hab.1 (Ne.symm hab.2))
  rw [foldl_removeRow_desc _ rows hdesc]
  exact keepIdx_congr _ _ rows 0 (fun j =>
    ((List.perm_insertionSort (fun a b : Nat => a ≥ b) selected.dedup).mem_iff).trans
      (List.mem_dedup))

/-- C8: stale indices in a removal batch are no-ops that raise no error:
the batch behaves exactly as if only the in-range indices had been
selected, and a batch made solely of out-of-range indices leaves the
table unchanged. -/
theorem remove_stale_indices_noop (rows : List Row) (selected : List Nat) :
    remove_selected_urls rows selected =
      remove_selected_urls rows (selected.filter (fun i => decide (i < rows.length))) ∧
    ((∀ i ∈ selected, rows.length ≤ i) → remove_selected_urls rows selected = rows) := by
  constructor
  · rw [remove_selected_urls_eq_keepIdx, remove_selected_urls_eq_keepIdx]
    apply keepIdx_congr_on
    intro j _ hj
    simp only [List.mem_filter, decide_eq_true_eq]
    constructor
    · intro hmem
      exact ⟨hmem, by omega⟩
    · intro hmem
      exact hmem.1
  · intro h
    unfold remove_selected_urls
    apply foldl_removeRow_oob
    intro i hi
    exact h i (List.mem_dedup.mp
      ((List.perm_insertionSort (fun a b : Nat => a ≥ b) selected.dedup).mem_iff.mp hi))

/-- Witness: removing index set `{5}` from a 3-row table leaves it
unchanged. -/
theorem remove_stale_indices_noop_witness :
    remove_selected_urls
      [("https://a.test", "A"), ("https://b.test", "B"), ("https://c.test", "C")]
      [5] =
      [("https://a.test", "A"), ("https://b.test", "B"), ("https://c.test", "C")] :=
  (remove_stale_indices_noop
    [("https://a.test", "A"), ("https://b.test", "B"), ("https://c.test", "C")]
    [5]).2 (by decide)

/-- C10: batch removal (descending-order deletion) produces exactly the
original list with the entries at the selected positions removed and all
other entries kept in their original relative order — no removal is
invalidated by an earlier one shifting indices. -/
theorem remove_selected_batch (rows : List Row) (selected : List Nat) :
    remove_selected_urls rows selected = keepIdx selected rows 0 :=
  remove_selected_urls_eq_keepIdx rows selected

end KioskBrowser
